import Mathlib

/-!
Verification development for the code-network-gen repository.

The repository contains three near-duplicate script variants:
* `src/index.js` — the basic variant,
* `src/unnamed/part_000` — the reference-graph variant (method registry, referenced-only filter),
* `src/unnamed/part_001` — the argument-tracking variant (edge kinds carry argument renderings).

This file shallowly embeds the data model (node and edge records), the
`deduplicate` functions of the three variants, the relevant syntax-tree
walk handlers, and the caller-attribution logic, and proves or refutes the
frozen specification claims about them.

JavaScript conventions modelled here:
* `null` / `undefined` string fields are modelled as `Option String` with `none`;
  JS truthiness of a string (`undefined`, `null` and `""` are falsy) is `linesTruthy`.
* JS `Map` preserves insertion order and `Map.set` on an existing key keeps the
  entry's position: modelled by an ordered association list with `updateAssoc`.
* In-place mutation of record objects stored both in the raw arrays and in the
  `seen` map (the `existing.lines += ...` statements) is modelled explicitly by
  `dedupMutate`, which returns both the post-run view of the raw array and the
  returned deduplicated array.
-/

/-- A node record as pushed by `addNode` (fields `id`, `label`, `type`, `lines`
in all three variants; `lines` is `null`/absent for libraries and imports). -/
structure NodeRec where
  id : String
  label : String
  type : String
  lines : Option String
deriving DecidableEq

/-- An edge record as pushed by `addEdge` (fields `source`, `target`, `type`).
Edge records carry no `lines` field in any variant. -/
structure EdgeRec where
  source : String
  target : String
  type : String
deriving DecidableEq

/-- Node deduplication key, from `` `${node.id}-${node.type}` `` (index.js line 180,
part_000 line 201, part_001 line 240). -/
def nodeKey (n : NodeRec) : String :=
  n.id ++ "-" ++ n.type

/-- Edge deduplication key, from `` `${edge.source}-${edge.target}-${edge.type}` ``
(index.js line 183, part_000 line 214, part_001 line 253). -/
def edgeKey (e : EdgeRec) : String :=
  e.source ++ "-" ++ e.target ++ "-" ++ e.type

/-- JS truthiness of the `lines` field: `undefined`/`null` (modelled `none`) and
the empty string are falsy; every other string is truthy. -/
def linesTruthy : Option String → Bool
  | none => false
  | some s => if s = "" then false else true

/-- The merge performed on a duplicate node observation
(`if (item.lines && existing.lines) existing.lines += ", " + item.lines`,
index.js lines 184-187, part_000 lines 205-208, part_001 lines 244-247).
`existing` is the stored representative, `item` the newly seen duplicate. -/
def mergeLines (existing item : NodeRec) : NodeRec :=
  if linesTruthy item.lines && linesTruthy existing.lines then
    { existing with lines := some (existing.lines.getD "" ++ ", " ++ item.lines.getD "") }
  else
    existing

/-- First-match lookup in an ordered association list (JS `Map.get`). -/
def lookupKey {α : Type} (k : String) : List (String × α) → Option α
  | [] => none
  | p :: rest => if p.1 = k then some p.2 else lookupKey k rest

/-- Key membership in an ordered association list (JS `Map.has`). -/
def containsKey {α : Type} (k : String) : List (String × α) → Bool
  | [] => false
  | p :: rest => if p.1 = k then true else containsKey k rest

/-- Update the value stored at the first occurrence of key `k`, keeping its
position (JS mutation of the object stored in the `Map`). -/
def updateAssoc {α : Type} (k : String) (f : α → α) : List (String × α) → List (String × α)
  | [] => []
  | p :: rest => if p.1 = k then (p.1, f p.2) :: rest else p :: updateAssoc k f rest

/-- One pass of the `deduplicate` loop over the raw observation list: the first
observation of a key becomes the stored representative (insertion order kept, as
in a JS `Map`), later observations with the same key are merged into it by
`merge` and then dropped. -/
def dedupFold {α : Type} (key : α → String) (merge : α → α → α)
    (acc : List (String × α)) : List α → List (String × α)
  | [] => acc
  | x :: xs =>
    if containsKey (key x) acc then
      dedupFold key merge (updateAssoc (key x) (fun v => merge v x) acc) xs
    else
      dedupFold key merge (acc ++ [(key x, x)]) xs

/-- The deduplicated list returned by one run of `deduplicate`
(`Array.from(map.values())` / `array.filter` both yield the representatives in
first-seen order, with all merges applied). -/
def dedupList {α : Type} (key : α → String) (merge : α → α → α) (l : List α) : List α :=
  (dedupFold key merge [] l).map Prod.snd

/-- Node deduplication as performed by every variant: key `id-type`, duplicate
line ranges comma-appended onto the representative. -/
def dedupNodes (l : List NodeRec) : List NodeRec :=
  dedupList nodeKey mergeLines l

/-- Edge deduplication as performed by every variant: key `source-target-type`,
the first observation is kept and later duplicates are discarded entirely
(edge records have no `lines` field, so the merge branch of the generic
`deduplicate` in index.js never fires on edges). -/
def dedupEdges (l : List EdgeRec) : List EdgeRec :=
  dedupList edgeKey (fun v _ => v) l

/-- Replace the first occurrence of each key in the raw list by its final merged
representative. Models the state of the raw `nodes` array after one run of
`deduplicate`: the representatives are the very objects stored in the array, and
the `existing.lines += ...` mutations are visible through the array. -/
def replaceFirsts (merged : List (String × NodeRec)) (seen : List String) :
    List NodeRec → List NodeRec
  | [] => []
  | n :: ns =>
    if seen.contains (nodeKey n) then
      n :: replaceFirsts merged seen ns
    else
      (match lookupKey (nodeKey n) merged with
        | some m => m
        | none => n) :: replaceFirsts merged (nodeKey n :: seen) ns

/-- One run of node `deduplicate` with its side effect: returns the post-run
view of the raw input array (first component) together with the returned
deduplicated array (second component). -/
def dedupMutate (raw : List NodeRec) : List NodeRec × List NodeRec :=
  let merged := dedupFold nodeKey mergeLines [] raw
  (replaceFirsts merged [] raw, merged.map Prod.snd)

/-- String membership in a list, modelling the JS `Set.has` test on
`referencedNodes` (part_000 line 224, part_001 line 263). -/
def memStr (s : String) : List String → Bool
  | [] => false
  | x :: rest => if x = s then true else memStr s rest

/-- The edge-deduplication loop of part_000 lines 213-221 / part_001 lines
252-260: deduplicate edges by `source-target-type` and, for each newly kept
edge, record its `source` and `target` in the referenced-node set. Returns the
kept edges (as an association list) and the referenced-identity list. -/
def dedupEdgesRef : List EdgeRec → List (String × EdgeRec) → List String →
    List (String × EdgeRec) × List String
  | [], acc, refs => (acc, refs)
  | e :: es, acc, refs =>
    if containsKey (edgeKey e) acc then
      dedupEdgesRef es acc refs
    else
      dedupEdgesRef es (acc ++ [(edgeKey e, e)]) (refs ++ [e.source, e.target])

/-- Final node/edge sets returned by `deduplicate(nodes, edges)`. -/
structure Graph where
  nodes : List NodeRec
  edges : List EdgeRec
deriving DecidableEq

/-- The `deduplicate(nodes, edges)` function of part_000 lines 195-232 and
part_001 lines 234-271: deduplicate nodes (merging line ranges), deduplicate
edges (keeping the first observation per key and collecting referenced
identities), then keep only the nodes whose `id` is referenced by some kept
edge. -/
def deduplicateGraph (nodesIn : List NodeRec) (edgesIn : List EdgeRec) : Graph :=
  let uniqueNodes := dedupFold nodeKey mergeLines [] nodesIn
  let er := dedupEdgesRef edgesIn [] []
  { nodes := (uniqueNodes.map Prod.snd).filter (fun n => memStr n.id er.2),
    edges := er.1.map Prod.snd }

/-- A syntax-tree node as visited by `walk.simple` with the handlers registered
in index.js lines 66-144. The Tree Builder (acorn) is an external collaborator
(spec section 6); a visited node is presented with the pieces of it that the
handlers read: names, source lines, and shape flags.
* `callExpression` carries the callee name when the callee is a bare
  `Identifier`, and `none` otherwise (member/computed calls);
* `variableDeclarator` carries whether the initializer is a function or
  arrow-function literal;
* `exportDefaultObject` is an `ExportDefaultDeclaration` of an object literal,
  as the list of its properties `(keyName, valueIsFunctionLiteral, startLine,
  endLine)`;
* `property` carries whether the property value is a function literal. -/
inductive WalkNode where
  | functionDeclaration (name : String) (startLine endLine : Nat)
  | importDeclaration (libraryName : String) (namedImports : List String)
  | callExpression (calleeIdent : Option String) (startLine endLine : Nat)
  | arrowFunctionExpression (startLine endLine : Nat)
  | classDeclaration (name : String) (startLine endLine : Nat)
  | methodDefinition (keyName : String) (startLine endLine : Nat)
  | variableDeclarator (name : String) (initIsFunctionLiteral : Bool) (startLine endLine : Nat)
  | exportDefaultObject (props : List (String × Bool × Nat × Nat))
  | property (keyName : String) (valueIsFunctionLiteral : Bool) (startLine endLine : Nat)

/-- The line-range string `` `[${node.loc.start.line}-${node.loc.end.line}]` ``. -/
def linesStr (s e : Nat) : String :=
  "[" ++ toString s ++ "-" ++ toString e ++ "]"

/-- The node and edge observations emitted for one visited syntax-tree node by
the index.js walker (index.js lines 66-144). In particular the
`CallExpression` handler (lines 85-91) attributes every bare-identifier call to
the synthetic caller `` `${fileName}:anonymous[${start}-${end}]` ``. -/
def walkHandlerIndex (fileName : String) : WalkNode → List NodeRec × List EdgeRec
  | .functionDeclaration name s e =>
    ([⟨fileName ++ ":" ++ name, name, "method", some (linesStr s e)⟩], [])
  | .importDeclaration lib named =>
    (⟨lib, lib, "library", none⟩ ::
        named.map (fun m => ⟨lib ++ "/" ++ m, m, "imported-method", none⟩),
      named.map (fun m => ⟨fileName, lib ++ "/" ++ m, "imports"⟩))
  | .callExpression calleeIdent s e =>
    match calleeIdent with
    | some callee =>
      ([], [⟨fileName ++ ":anonymous[" ++ toString s ++ "-" ++ toString e ++ "]",
             callee, "calls"⟩])
    | none => ([], [])
  | .arrowFunctionExpression s e =>
    ([⟨fileName ++ ":arrow", "arrow function", "method", some (linesStr s e)⟩], [])
  | .classDeclaration name s e =>
    ([⟨fileName ++ ":" ++ name, name, "class", some (linesStr s e)⟩], [])
  | .methodDefinition key s e =>
    ([⟨fileName ++ ":" ++ key, key, "method", some (linesStr s e)⟩], [])
  | .variableDeclarator name initFn s e =>
    if initFn then
      ([⟨fileName ++ ":" ++ name, name, "method", some (linesStr s e)⟩], [])
    else ([], [])
  | .exportDefaultObject props =>
    (props.filterMap (fun p =>
        if p.2.1 then
          some ⟨fileName ++ ":" ++ p.1, p.1, "vue-method", some (linesStr p.2.2.1 p.2.2.2)⟩
        else none),
      [])
  | .property key valueFn s e =>
    if valueFn then
      ([⟨fileName ++ ":" ++ key, key, "vue-method", some (linesStr s e)⟩], [])
    else ([], [])

/-- The raw observations emitted by the index.js Extractor for one parsed file:
the concatenation, in tree-walk order, of the observations of every visited
node. -/
def extractIndex (fileName : String) : List WalkNode → List NodeRec × List EdgeRec
  | [] => ([], [])
  | n :: rest =>
    let h := walkHandlerIndex fileName n
    let r := extractIndex fileName rest
    (h.1 ++ r.1, h.2 ++ r.2)

/-- The edge kind built for a call in part_001 line 143:
`` addEdge(callerName, calleeName, `calls(${args})`) ``. -/
def callsType (args : String) : String :=
  "calls(" ++ args ++ ")"

/-- An entry of a syntax-tree node's ancestor chain (nearest ancestor first),
as exposed by the Tree Builder's `parent` back-references (spec section 6).
`funcDecl` is a `FunctionDeclaration` whose `id` is present iff `some`;
`methodDef` is a `MethodDefinition` whose `key` name is present iff `some`;
`other` is any other node shape. -/
inductive AncestorNode where
  | funcDecl (name : Option String)
  | methodDef (name : Option String)
  | other

/-- `getEnclosingFunctionName` of part_000 lines 54-62: walk the ancestor chain
upward; return the name of the first `FunctionDeclaration` that has an `id`;
return `"global"` if none is found. Method definitions are not considered. -/
def getEnclosingFunctionName : List AncestorNode → String
  | [] => "global"
  | .funcDecl (some n) :: _ => n
  | _ :: rest => getEnclosingFunctionName rest

/-- The caller-name computation of part_001 lines 112-123: start from the
synthetic per-line identity `` `${fileName}:anonymous[${line}]` `` and walk the
ancestor chain upward; the first `FunctionDeclaration` with an `id` or
`MethodDefinition` with a `key` wins. -/
def callerName001 (fileName : String) (line : Nat) : List AncestorNode → String
  | [] => fileName ++ ":anonymous[" ++ toString line ++ "]"
  | .funcDecl (some n) :: _ => fileName ++ ":" ++ n
  | .methodDef (some k) :: _ => fileName ++ ":" ++ k
  | _ :: rest => callerName001 fileName line rest

/-- Whether an ancestor entry is a `FunctionDeclaration` with an `id`
(the only shape part_000's walk stops at). -/
def isNamedFuncDecl : AncestorNode → Bool
  | .funcDecl (some _) => true
  | _ => false

/-- Whether an ancestor entry is a shape part_001's walk stops at: a
`FunctionDeclaration` with an `id` or a `MethodDefinition` with a `key`. -/
def isNamedCaller001 : AncestorNode → Bool
  | .funcDecl (some _) => true
  | .methodDef (some _) => true
  | _ => false

/-- One input file as handed to the Extractor: its path (used in warnings), its
basename (used in identities; `path.basename` is an external path operation),
and the outcome of the external Tree Builder on its text — either a parse
error message or the tree, presented as the list of visited nodes. -/
structure InputFile where
  path : String
  base : String
  parsed : Except String (List WalkNode)

/-- Everything one scan accumulates: raw node and edge observations plus the
warnings printed along the way. -/
structure Extraction where
  nodes : List NodeRec
  edges : List EdgeRec
  warnings : List String
deriving DecidableEq

/-- Concatenation of scan results, componentwise and in order. -/
def extAppend (a b : Extraction) : Extraction :=
  ⟨a.nodes ++ b.nodes, a.edges ++ b.edges, a.warnings ++ b.warnings⟩

/-- Processing of one file by `parseJavaScript` (index.js lines 45-63): if the
Tree Builder fails, the file contributes no observations and the warning
`` `Warning: Could not parse ${filePath}. Error: ${error.message}` `` is
emitted; otherwise the walker's observations are accumulated. -/
def processFile (f : InputFile) : Extraction :=
  match f.parsed with
  | .error msg =>
    ⟨[], [], ["Warning: Could not parse " ++ f.path ++ ". Error: " ++ msg]⟩
  | .ok tree =>
    let r := extractIndex f.base tree
    ⟨r.1, r.2, []⟩

/-- The scan loop of `scanDirectory` (index.js lines 145-177): files are
processed one at a time in scan order, each appending its observations and
warnings to the accumulated result. -/
def scanFiles : List InputFile → Extraction
  | [] => ⟨[], [], []⟩
  | f :: fs => extAppend (processFile f) (scanFiles fs)

/-- The type inference of part_001's `addNode` (lines 13-24): a node added with
type `"unknown"` gets type `"function"` if its id contains `":"`, else
`"imported-method"` if it contains `"/"`, else `"variable"`. -/
def inferUnknownType (id type : String) : String :=
  if type = "unknown" then
    if id.data.contains ':' then "function"
    else if id.data.contains '/' then "imported-method"
    else "variable"
  else type

/-- JS `a || b` on strings, where the empty string stands for the falsy values
(`undefined`, `null`, `""`). -/
def jsOr (a b : String) : String :=
  if a = "" then b else a

/-- Characters before the next `':'`, helper for `splitColonSecond`. -/
def takeUntilColon : List Char → List Char
  | [] => []
  | ch :: rest => if ch = ':' then [] else ch :: takeUntilColon rest

/-- Characters strictly between the first and second `':'`, if a first `':'`
exists. -/
def afterFirstColon : List Char → Option (List Char)
  | [] => none
  | ch :: rest => if ch = ':' then some (takeUntilColon rest) else afterFirstColon rest

/-- JS `s.split(":")[1]`, with `undefined` (no `":"` in `s`) modelled as the
falsy `""`. -/
def splitColonSecond (s : String) : String :=
  match afterFirstColon s.data with
  | none => ""
  | some cs => ⟨cs⟩

/-- `addNode` of part_001 lines 13-24: infer the type when it is `"unknown"`
and push the record onto the accumulated node list. -/
def addNode001 (g : Graph) (id label type : String) (lines : Option String) : Graph :=
  { g with nodes := g.nodes ++ [⟨id, label, inferUnknownType id type, lines⟩] }

/-- `ensureNodeExists` of part_001 lines 31-35: if no accumulated node has this
`id`, add one via `addNode(id, label || id.split(":")[1] || id, type ||
"unknown")` (no `lines` argument, hence `none`). -/
def ensureNodeExists (g : Graph) (id label type : String) : Graph :=
  if g.nodes.any (fun n => n.id = id) then g
  else addNode001 g id (jsOr label (jsOr (splitColonSecond id) id)) (jsOr type "unknown") none

/-- `addEdge` of part_001 lines 25-29: materialize both endpoints via
`ensureNodeExists(endpoint, endpoint.split(":")[1] || endpoint, "unknown")`,
then push the edge record. -/
def addEdge001 (g : Graph) (source target type : String) : Graph :=
  let g1 := ensureNodeExists g source (jsOr (splitColonSecond source) source) "unknown"
  let g2 := ensureNodeExists g1 target (jsOr (splitColonSecond target) target) "unknown"
  { g2 with edges := g2.edges ++ [⟨source, target, type⟩] }

/-- An accumulator operation of the part_001 extractor: every walk handler
mutates the shared state only through `addNode` and `addEdge`. -/
inductive Op001 where
  | addNode (id label type : String) (lines : Option String)
  | addEdge (source target type : String)

/-- Apply one part_001 accumulator operation. -/
def step001 (g : Graph) : Op001 → Graph
  | .addNode id label ty lines => addNode001 g id label ty lines
  | .addEdge src tgt ty => addEdge001 g src tgt ty

/-- Run a sequence of part_001 accumulator operations from a given state. -/
def runFrom001 (g : Graph) : List Op001 → Graph
  | [] => g
  | op :: ops => runFrom001 (step001 g op) ops

/-- Run a sequence of part_001 accumulator operations from the initial empty
state (`const nodes = []; const edges = []`). -/
def runOps001 (ops : List Op001) : Graph :=
  runFrom001 ⟨[], []⟩ ops

/-- Whether the accumulated node list holds a record with this `id`
(`nodes.some(node => node.id === id)`, part_001 line 32). -/
def hasId (g : Graph) (id : String) : Bool :=
  g.nodes.any (fun n => n.id = id)

/-- Comma-join of line ranges, the shape produced by repeated
`existing.lines += ", " + item.lines` merges. -/
def joinRanges : List String → String
  | [] => ""
  | [s] => s
  | s :: t :: rest => s ++ ", " ++ joinRanges (t :: rest)

/-! ## Association-list lemmas -/

theorem containsKey_eq_isSome {α : Type} (k : String) (l : List (String × α)) :
    containsKey k l = (lookupKey k l).isSome := by
  induction l with
  | nil => rfl
  | cons p rest ih =>
    simp only [containsKey, lookupKey]
    split <;> simp [ih]

theorem lookupKey_append {α : Type} (k : String) (l₁ l₂ : List (String × α)) :
    lookupKey k (l₁ ++ l₂) =
      match lookupKey k l₁ with
      | some v => some v
      | none => lookupKey k l₂ := by
  induction l₁ with
  | nil => simp [lookupKey]
  | cons p rest ih =>
    simp only [List.cons_append, lookupKey]
    split <;> simp [ih]

theorem lookupKey_updateAssoc_self {α : Type} (k : String) (f : α → α)
    (l : List (String × α)) :
    lookupKey k (updateAssoc k f l) = (lookupKey k l).map f := by
  induction l with
  | nil => rfl
  | cons p rest ih =>
    simp only [updateAssoc]
    by_cases h : p.1 = k
    · simp [lookupKey, h]
    · simp [lookupKey, h, ih]

theorem lookupKey_updateAssoc_ne {α : Type} {k k' : String} (hne : k' ≠ k) (f : α → α)
    (l : List (String × α)) :
    lookupKey k (updateAssoc k' f l) = lookupKey k l := by
  induction l with
  | nil => rfl
  | cons p rest ih =>
    simp only [updateAssoc]
    by_cases h : p.1 = k'
    · rw [if_pos h]
      have hk : ¬ p.1 = k := by rw [h]; exact hne
      simp only [lookupKey]
      rw [if_neg hk, if_neg hk]
    · rw [if_neg h]
      simp only [lookupKey]
      split
      · rfl
      · exact ih

theorem updateAssoc_map_fst {α : Type} (k : String) (f : α → α) (l : List (String × α)) :
    (updateAssoc k f l).map Prod.fst = l.map Prod.fst := by
  induction l with
  | nil => rfl
  | cons p rest ih =>
    simp only [updateAssoc]
    split <;> simp [ih]

theorem containsKey_eq_false_iff {α : Type} (k : String) (l : List (String × α)) :
    containsKey k l = false ↔ k ∉ l.map Prod.fst := by
  induction l with
  | nil => simp [containsKey]
  | cons p rest ih =>
    simp only [containsKey, List.map_cons, List.mem_cons]
    by_cases h : p.1 = k
    · simp [h]
    · have h' : ¬ k = p.1 := fun hk => h hk.symm
      simp [h, h', ih]

theorem mem_updateAssoc {α : Type} {k : String} {f : α → α} :
    ∀ {l : List (String × α)} {p : String × α}, p ∈ updateAssoc k f l →
      p ∈ l ∨ ∃ v, p = (k, f v) ∧ (k, v) ∈ l := by
  intro l
  induction l with
  | nil => intro p h; simp [updateAssoc] at h
  | cons q rest ih =>
    intro p h
    simp only [updateAssoc] at h
    by_cases hq : q.1 = k
    · rw [if_pos hq] at h
      rcases List.mem_cons.mp h with h' | h'
      · right
        refine ⟨q.2, ?_, ?_⟩
        · rw [h', hq]
        · rw [← hq]
          exact List.mem_cons_self _ _
      · exact Or.inl (List.mem_cons_of_mem _ h')
    · rw [if_neg hq] at h
      rcases List.mem_cons.mp h with h' | h'
      · exact Or.inl (h' ▸ List.mem_cons_self _ _)
      · rcases ih h' with h'' | ⟨v, hv, hmem⟩
        · exact Or.inl (List.mem_cons_of_mem _ h'')
        · exact Or.inr ⟨v, hv, List.mem_cons_of_mem _ hmem⟩

/-! ## Characterization of one `deduplicate` pass -/

theorem dedupFold_lookup {α : Type} (key : α → String) (merge : α → α → α) (K : String) :
    ∀ (xs : List α) (acc : List (String × α)),
      lookupKey K (dedupFold key merge acc xs) =
        match lookupKey K acc with
        | some v => some ((xs.filter (fun x => key x = K)).foldl merge v)
        | none =>
          match xs.filter (fun x => key x = K) with
          | [] => none
          | y :: ys => some (ys.foldl merge y) := by
  intro xs
  induction xs with
  | nil =>
    intro acc
    simp only [dedupFold, List.filter_nil, List.foldl_nil]
    cases lookupKey K acc <;> rfl
  | cons x xs ih =>
    intro acc
    simp only [dedupFold]
    by_cases hc : containsKey (key x) acc
    · rw [if_pos hc, ih]
      by_cases hxK : key x = K
      · have hsome : (lookupKey K acc).isSome = true := by
          rw [← hxK, ← containsKey_eq_isSome]
          exact hc
        obtain ⟨v, hv⟩ := Option.isSome_iff_exists.mp hsome
        rw [hxK, lookupKey_updateAssoc_self, hv]
        simp [List.filter_cons, hxK, hv]
      · rw [lookupKey_updateAssoc_ne hxK]
        simp [List.filter_cons, hxK]
    · rw [if_neg hc, ih, lookupKey_append]
      by_cases hxK : key x = K
      · have hnone : lookupKey K acc = none := by
          cases h2 : lookupKey K acc with
          | none => rfl
          | some v =>
            exfalso
            apply hc
            rw [containsKey_eq_isSome, hxK, h2]
            rfl
        rw [hnone]
        simp [lookupKey, hxK, List.filter_cons]
      · have hx : lookupKey K [(key x, x)] = none := by
          simp [lookupKey, hxK]
        cases hacc : lookupKey K acc with
        | some v => simp [hacc, List.filter_cons, hxK]
        | none => simp [hacc, hx, List.filter_cons, hxK]

theorem dedupFold_key_eq {α : Type} (key : α → String) (merge : α → α → α)
    (hm : ∀ a b, key (merge a b) = key a) :
    ∀ (xs : List α) (acc : List (String × α)),
      (∀ p ∈ acc, key p.2 = p.1) →
      ∀ p ∈ dedupFold key merge acc xs, key p.2 = p.1 := by
  intro xs
  induction xs with
  | nil =>
    intro acc hacc p hp
    exact hacc p hp
  | cons x xs ih =>
    intro acc hacc p hp
    simp only [dedupFold] at hp
    by_cases hc : containsKey (key x) acc
    · rw [if_pos hc] at hp
      refine ih _ ?_ p hp
      intro q hq
      rcases mem_updateAssoc hq with h | ⟨v, hqv, hmem⟩
      · exact hacc q h
      · have hkv : key v = key x := hacc (key x, v) hmem
        rw [hqv]
        simp only
        rw [hm v x, hkv]
    · rw [if_neg hc] at hp
      refine ih _ ?_ p hp
      intro q hq
      rcases List.mem_append.mp hq with h | h
      · exact hacc q h
      · have hq' : q = (key x, x) := List.mem_singleton.mp h
        rw [hq']

theorem dedupFold_keys_nodup {α : Type} (key : α → String) (merge : α → α → α) :
    ∀ (xs : List α) (acc : List (String × α)),
      (acc.map Prod.fst).Nodup → ((dedupFold key merge acc xs).map Prod.fst).Nodup := by
  intro xs
  induction xs with
  | nil =>
    intro acc h
    exact h
  | cons x xs ih =>
    intro acc h
    simp only [dedupFold]
    by_cases hc : containsKey (key x) acc
    · rw [if_pos hc]
      refine ih _ ?_
      rw [updateAssoc_map_fst]
      exact h
    · rw [if_neg hc]
      refine ih _ ?_
      have hfalse : containsKey (key x) acc = false := by
        revert hc
        cases containsKey (key x) acc <;> simp
      have hnot : key x ∉ acc.map Prod.fst := (containsKey_eq_false_iff _ _).mp hfalse
      rw [List.map_append]
      simp only [List.map_cons, List.map_nil]
      rw [List.nodup_append]
      refine ⟨h, List.nodup_singleton _, ?_⟩
      intro a ha hmem
      rw [List.mem_singleton] at hmem
      rw [hmem] at ha
      exact hnot ha

theorem assoc_filter_of_nodup {α : Type} (K : String) :
    ∀ (l : List (String × α)), (l.map Prod.fst).Nodup →
      l.filter (fun p => p.1 = K) =
        match lookupKey K l with
        | none => []
        | some v => [(K, v)] := by
  intro l
  induction l with
  | nil =>
    intro h
    rfl
  | cons p rest ih =>
    intro h
    obtain ⟨k1, v1⟩ := p
    simp only [List.map_cons, List.nodup_cons] at h
    obtain ⟨hp, hrest⟩ := h
    by_cases hpK : k1 = K
    · subst hpK
      have hfil : rest.filter (fun q => decide (q.1 = k1)) = [] := by
        rw [List.filter_eq_nil_iff]
        intro q hq
        simp only [decide_eq_true_eq]
        intro hqK
        exact hp (by rw [← hqK]; exact List.mem_map_of_mem Prod.fst hq)
      simp [List.filter_cons, lookupKey, hfil]
    · simp only [List.filter_cons, lookupKey]
      rw [if_neg (by simpa using hpK), if_neg hpK]
      exact ih hrest

theorem filter_map_snd {α : Type} (p : α → Bool) :
    ∀ (l : List (String × α)),
      (l.map Prod.snd).filter p = (l.filter (fun q => p q.2)).map Prod.snd := by
  intro l
  induction l with
  | nil => rfl
  | cons q rest ih =>
    simp only [List.map_cons, List.filter_cons]
    by_cases h : p q.2
    · rw [if_pos h, if_pos h, List.map_cons, ih]
    · rw [if_neg h, if_neg h]
      exact ih

theorem filter_congr_mem {α : Type} (p q : α → Bool) :
    ∀ (l : List α), (∀ x ∈ l, p x = q x) → l.filter p = l.filter q := by
  intro l
  induction l with
  | nil =>
    intro h
    rfl
  | cons x rest ih =>
    intro h
    have hx := h x (List.mem_cons_self _ _)
    simp only [List.filter_cons]
    rw [hx]
    by_cases hq : q x
    · rw [if_pos hq, if_pos hq, ih (fun y hy => h y (List.mem_cons_of_mem _ hy))]
    · rw [if_neg hq, if_neg hq]
      exact ih (fun y hy => h y (List.mem_cons_of_mem _ hy))

theorem dedupList_filter_key {α : Type} (key : α → String) (merge : α → α → α)
    (hm : ∀ a b, key (merge a b) = key a) (raw : List α) (K : String) :
    (dedupList key merge raw).filter (fun v => key v = K) =
      match raw.filter (fun x => key x = K) with
      | [] => []
      | y :: ys => [ys.foldl merge y] := by
  unfold dedupList
  rw [filter_map_snd]
  have hkey : ∀ p ∈ dedupFold key merge [] raw, key p.2 = p.1 :=
    dedupFold_key_eq key merge hm raw [] (by intro p hp; simp at hp)
  rw [filter_congr_mem _ (fun q => decide (q.1 = K)) _
    (by intro q hq; simp [hkey q hq])]
  rw [assoc_filter_of_nodup K _ (dedupFold_keys_nodup key merge raw [] (by simp))]
  rw [dedupFold_lookup key merge K raw []]
  simp only [lookupKey]
  generalize raw.filter (fun x => decide (key x = K)) = fl
  cases fl <;> rfl

theorem dedupList_pairwise_key {α : Type} (key : α → String) (merge : α → α → α)
    (hm : ∀ a b, key (merge a b) = key a) (raw : List α) :
    (dedupList key merge raw).Pairwise (fun a b => key a ≠ key b) := by
  unfold dedupList
  rw [List.pairwise_map]
  have hnd : ((dedupFold key merge [] raw).map Prod.fst).Nodup :=
    dedupFold_keys_nodup key merge raw [] (by simp)
  have hkey : ∀ p ∈ dedupFold key merge [] raw, key p.2 = p.1 :=
    dedupFold_key_eq key merge hm raw [] (by intro p hp; simp at hp)
  have hpw := List.pairwise_map.mp hnd
  refine hpw.imp_of_mem ?_
  intro p q hp hq hne
  rw [hkey p hp, hkey q hq]
  exact hne

/-! ## String and merge lemmas -/

theorem string_append_left_cancel {p a b : String} (h : p ++ a = p ++ b) : a = b := by
  cases p with
  | mk pd =>
    cases a with
    | mk ad =>
      cases b with
      | mk bd =>
        have hd : pd ++ ad = pd ++ bd := congrArg String.data h
        rw [List.append_cancel_left hd]

theorem string_ne_empty_append {a : String} (b : String) (h : a ≠ "") : a ++ b ≠ "" := by
  intro hab
  apply h
  cases a with
  | mk ad =>
    cases b with
    | mk bd =>
      have hd : ad ++ bd = ([] : List Char) := congrArg String.data hab
      have had : ad = [] := (List.append_eq_nil.mp hd).1
      rw [had]

theorem linesTruthy_some {s : String} (h : s ≠ "") : linesTruthy (some s) = true := by
  simp [linesTruthy, h]

theorem linesTruthy_some_ne {s : String} (h : linesTruthy (some s) = true) : s ≠ "" := by
  intro he
  rw [he] at h
  simp [linesTruthy] at h

theorem nodeKey_mergeLines (a b : NodeRec) : nodeKey (mergeLines a b) = nodeKey a := by
  unfold mergeLines
  split <;> rfl

theorem foldl_mergeLines_of_rep_falsy (rest : List NodeRec) :
    ∀ (r : NodeRec), linesTruthy r.lines = false → rest.foldl mergeLines r = r := by
  induction rest with
  | nil =>
    intro r _
    rfl
  | cons n ns ih =>
    intro r hr
    rw [List.foldl_cons]
    have hmerge : mergeLines r n = r := by
      unfold mergeLines
      rw [hr]
      simp
    rw [hmerge]
    exact ih r hr

theorem foldl_mergeLines_of_items_falsy (rest : List NodeRec) :
    ∀ (r : NodeRec), (∀ n ∈ rest, linesTruthy n.lines = false) →
      rest.foldl mergeLines r = r := by
  induction rest with
  | nil =>
    intro r _
    rfl
  | cons n ns ih =>
    intro r h
    rw [List.foldl_cons]
    have hmerge : mergeLines r n = r := by
      unfold mergeLines
      rw [h n (List.mem_cons_self _ _)]
      simp
    rw [hmerge]
    exact ih r (fun m hm => h m (List.mem_cons_of_mem _ hm))

theorem foldl_mergeLines_truthy (rest : List NodeRec) :
    ∀ (r : NodeRec) (s : String), r.lines = some s → s ≠ "" →
      (∀ n ∈ rest, linesTruthy n.lines = true) →
      rest.foldl mergeLines r =
        { r with lines := some (joinRanges (s :: rest.map (fun n => n.lines.getD ""))) } := by
  induction rest with
  | nil =>
    intro r s hs _ _
    simp [joinRanges, ← hs]
  | cons n ns ih =>
    intro r s hs hne htruthy
    have hnT : linesTruthy n.lines = true := htruthy n (List.mem_cons_self _ _)
    obtain ⟨t, ht⟩ : ∃ t, n.lines = some t := by
      cases hn : n.lines with
      | none =>
        rw [hn] at hnT
        simp [linesTruthy] at hnT
      | some t => exact ⟨t, rfl⟩
    have htne : t ≠ "" := linesTruthy_some_ne (ht ▸ hnT)
    rw [List.foldl_cons]
    have hmerge : mergeLines r n = { r with lines := some (s ++ ", " ++ t) } := by
      unfold mergeLines
      rw [ht, hs, linesTruthy_some htne, linesTruthy_some hne]
      simp
    rw [hmerge]
    rw [ih _ (s ++ ", " ++ t) rfl
      (string_ne_empty_append _ (string_ne_empty_append _ hne))
      (fun m hm => htruthy m (List.mem_cons_of_mem _ hm))]
    have hjoin : joinRanges ((s ++ ", " ++ t) :: ns.map (fun m => m.lines.getD "")) =
        joinRanges (s :: t :: ns.map (fun m => m.lines.getD "")) := by
      cases hns : ns.map (fun m => m.lines.getD "") with
      | nil => rfl
      | cons u us =>
        simp only [joinRanges]
        simp [String.append_assoc]
    rw [hjoin]
    simp [ht]

/-! ## Referenced-node bookkeeping of the graph deduplicator -/

theorem memStr_true_iff (s : String) :
    ∀ (l : List String), memStr s l = true ↔ s ∈ l := by
  intro l
  induction l with
  | nil => simp [memStr]
  | cons x rest ih =>
    simp only [memStr, List.mem_cons]
    by_cases h : x = s
    · simp [h]
    · have h' : ¬ s = x := fun hs => h hs.symm
      simp [h, h', ih]

theorem dedupEdgesRef_refs_incident :
    ∀ (es : List EdgeRec) (acc : List (String × EdgeRec)) (refs : List String),
      (∀ r ∈ refs, ∃ e ∈ acc.map Prod.snd, e.source = r ∨ e.target = r) →
      ∀ r ∈ (dedupEdgesRef es acc refs).2,
        ∃ e ∈ (dedupEdgesRef es acc refs).1.map Prod.snd, e.source = r ∨ e.target = r := by
  intro es
  induction es with
  | nil =>
    intro acc refs h r hr
    exact h r hr
  | cons e es ih =>
    intro acc refs h r hr
    simp only [dedupEdgesRef] at hr ⊢
    by_cases hc : containsKey (edgeKey e) acc
    · rw [if_pos hc] at hr ⊢
      exact ih _ _ h r hr
    · rw [if_neg hc] at hr ⊢
      refine ih _ _ ?_ r hr
      intro r' hr'
      rcases List.mem_append.mp hr' with h' | h'
      · obtain ⟨e', he', hor⟩ := h r' h'
        refine ⟨e', ?_, hor⟩
        rw [List.map_append]
        exact List.mem_append_left _ he'
      · refine ⟨e, ?_, ?_⟩
        · rw [List.map_append]
          exact List.mem_append_right _ (by simp)
        · rcases List.mem_cons.mp h' with h'' | h''
          · exact Or.inl h''.symm
          · rw [List.mem_singleton] at h''
            exact Or.inr h''.symm

/-! ## Scan composition -/

theorem extAppend_assoc (a b c : Extraction) :
    extAppend (extAppend a b) c = extAppend a (extAppend b c) := by
  simp [extAppend, List.append_assoc]

theorem scanFiles_append (l₁ l₂ : List InputFile) :
    scanFiles (l₁ ++ l₂) = extAppend (scanFiles l₁) (scanFiles l₂) := by
  induction l₁ with
  | nil =>
    simp only [List.nil_append, scanFiles]
    cases h : scanFiles l₂ with
    | mk ns es ws => simp [extAppend]
  | cons f fs ih =>
    simp only [List.cons_append, scanFiles]
    rw [List.append_eq, ih, extAppend_assoc]

/-! ## Invariant of the part_001 accumulator -/

theorem hasId_mono_append (nodes extra : List NodeRec) (id : String)
    (h : nodes.any (fun n => n.id = id) = true) :
    (nodes ++ extra).any (fun n => n.id = id) = true := by
  rw [List.any_append, h]
  rfl

theorem addNode001_nodes (g : Graph) (id label ty : String) (lines : Option String) :
    (addNode001 g id label ty lines).nodes =
      g.nodes ++ [⟨id, label, inferUnknownType id ty, lines⟩] := rfl

theorem addNode001_edges (g : Graph) (id label ty : String) (lines : Option String) :
    (addNode001 g id label ty lines).edges = g.edges := rfl

theorem ensureNodeExists_nodes_extends (g : Graph) (id label ty : String) :
    ∃ extra, (ensureNodeExists g id label ty).nodes = g.nodes ++ extra := by
  unfold ensureNodeExists
  split
  · exact ⟨[], by simp⟩
  · exact ⟨_, rfl⟩

theorem ensureNodeExists_edges (g : Graph) (id label ty : String) :
    (ensureNodeExists g id label ty).edges = g.edges := by
  unfold ensureNodeExists
  split
  · rfl
  · rfl

theorem ensureNodeExists_hasId (g : Graph) (id label ty : String) :
    hasId (ensureNodeExists g id label ty) id = true := by
  unfold ensureNodeExists hasId
  split
  · assumption
  · rw [addNode001_nodes, List.any_append]
    simp [addNode001]

theorem ensureNodeExists_hasId_mono (g : Graph) (id label ty other : String)
    (h : hasId g other = true) :
    hasId (ensureNodeExists g id label ty) other = true := by
  obtain ⟨extra, hex⟩ := ensureNodeExists_nodes_extends g id label ty
  unfold hasId at h ⊢
  rw [hex]
  exact hasId_mono_append _ _ _ h

/-- The endpoint-materialization invariant of the part_001 accumulator. -/
def EndpointsMaterialized (g : Graph) : Prop :=
  ∀ e ∈ g.edges, hasId g e.source = true ∧ hasId g e.target = true

theorem step001_preserves (g : Graph) (op : Op001)
    (h : EndpointsMaterialized g) : EndpointsMaterialized (step001 g op) := by
  cases op with
  | addNode id label ty lines =>
    intro e he
    simp only [step001, addNode001] at he ⊢
    obtain ⟨h1, h2⟩ := h e he
    exact ⟨hasId_mono_append _ _ _ h1, hasId_mono_append _ _ _ h2⟩
  | addEdge src tgt ty =>
    intro e he
    simp only [step001, addEdge001] at he ⊢
    rw [ensureNodeExists_edges, ensureNodeExists_edges] at he
    have hsrc : hasId (ensureNodeExists g src (jsOr (splitColonSecond src) src) "unknown")
        src = true := ensureNodeExists_hasId _ _ _ _
    have hsrc2 : hasId (ensureNodeExists
        (ensureNodeExists g src (jsOr (splitColonSecond src) src) "unknown")
        tgt (jsOr (splitColonSecond tgt) tgt) "unknown") src = true :=
      ensureNodeExists_hasId_mono _ _ _ _ _ hsrc
    have htgt : hasId (ensureNodeExists
        (ensureNodeExists g src (jsOr (splitColonSecond src) src) "unknown")
        tgt (jsOr (splitColonSecond tgt) tgt) "unknown") tgt = true :=
      ensureNodeExists_hasId _ _ _ _
    rcases List.mem_append.mp he with hold | hnew
    · obtain ⟨h1, h2⟩ := h e hold
      constructor
      · exact ensureNodeExists_hasId_mono _ _ _ _ _
          (ensureNodeExists_hasId_mono _ _ _ _ _ h1)
      · exact ensureNodeExists_hasId_mono _ _ _ _ _
          (ensureNodeExists_hasId_mono _ _ _ _ _ h2)
    · rw [List.mem_singleton] at hnew
      rw [hnew]
      exact ⟨hsrc2, htgt⟩

theorem runFrom001_preserves :
    ∀ (ops : List Op001) (g : Graph),
      EndpointsMaterialized g → EndpointsMaterialized (runFrom001 g ops) := by
  intro ops
  induction ops with
  | nil =>
    intro g h
    exact h
  | cons op ops ih =>
    intro g h
    exact ih _ (step001_preserves g op h)

/-! ## Claim theorems -/

/-- Counterexample to claim C1 for the basic variant (index.js `displayResults`,
lines 197-218): the final reported node set is just the deduplicated node list —
no referenced-only filter is applied — so a node with zero incident final edges
(here `f.js:a`, with an empty final edge set) is still reported. -/
theorem index_reports_unreferenced_node :
    dedupNodes [⟨"f.js:a", "a", "method", some "[1-3]"⟩] =
      [⟨"f.js:a", "a", "method", some "[1-3]"⟩] ∧
    dedupEdges ([] : List EdgeRec) = [] ∧
    ¬ ∃ e ∈ dedupEdges ([] : List EdgeRec), e.source = "f.js:a" ∨ e.target = "f.js:a" := by
  refine ⟨by decide, rfl, ?_⟩
  rintro ⟨e, he, -⟩
  simp [dedupEdges, dedupList, dedupFold] at he

/-- Claim C1, amended: in the variants whose `deduplicate(nodes, edges)` applies
the referenced-only filter (part_000 lines 195-232, part_001 lines 234-271),
every node of the final reported node set has at least one incident final edge;
the basic variant (index.js) applies no such filter and reports deduplicated
nodes even when they have zero incident edges. -/
theorem deduplicateGraph_final_nodes_referenced (nodesIn : List NodeRec)
    (edgesIn : List EdgeRec) (n : NodeRec)
    (hn : n ∈ (deduplicateGraph nodesIn edgesIn).nodes) :
    ∃ e ∈ (deduplicateGraph nodesIn edgesIn).edges,
      e.source = n.id ∨ e.target = n.id := by
  simp only [deduplicateGraph] at hn ⊢
  rw [List.mem_filter] at hn
  obtain ⟨-, hmem⟩ := hn
  have hid : n.id ∈ (dedupEdgesRef edgesIn [] []).2 := (memStr_true_iff _ _).mp hmem
  exact dedupEdgesRef_refs_incident edgesIn [] [] (by intro r hr; simp at hr) n.id hid

/-- Witness for `deduplicateGraph_final_nodes_referenced` at a concrete input:
one declared function node referenced as the source of one call edge. -/
theorem deduplicateGraph_final_nodes_referenced_witness :
    ∃ e ∈ (deduplicateGraph [⟨"f.js:a", "a", "method", some "[1-3]"⟩]
        [⟨"f.js:a", "b", "calls"⟩]).edges,
      e.source = "f.js:a" ∨ e.target = "f.js:a" :=
  deduplicateGraph_final_nodes_referenced
    [⟨"f.js:a", "a", "method", some "[1-3]"⟩] [⟨"f.js:a", "b", "calls"⟩]
    ⟨"f.js:a", "a", "method", some "[1-3]"⟩ (by decide)

/-- Counterexample to claim C2: in index.js (CallExpression handler, lines
85-91) a bare-identifier call at lines 2-2 lexically inside the named function
declaration `a` (lines 1-3) is attributed to the synthetic anonymous caller
`f.js:anonymous[2-2]`, not to the nearest enclosing named function declaration
`f.js:a`: the handler never walks the ancestor chain. -/
theorem index_call_attribution_ignores_enclosing_function :
    (extractIndex "f.js"
        [.functionDeclaration "a" 1 3, .callExpression (some "b") 2 2]).2 =
      [⟨"f.js:anonymous[2-2]", "b", "calls"⟩] ∧
    "f.js:anonymous[2-2]" ≠ "f.js:a" := by
  exact ⟨by decide, by decide⟩

/-- Claim C2, amended: only the reference-graph variant (part_000) and the
argument-tracking variant (part_001) walk the ancestor chain. part_000
(`getEnclosingFunctionName`, lines 54-62) attributes a call to the nearest
enclosing named function declaration and to the fixed string `"global"`
otherwise — it never stops at a method definition; part_001 (lines 110-123)
attributes to the nearest enclosing named function declaration or method
definition and to the synthetic per-line identity `fileName:anonymous[line]`
otherwise; the basic variant (index.js) performs no ancestor walk and
attributes every bare-identifier call to
`fileName:anonymous[startLine-endLine]`. -/
theorem caller_attribution_by_variant :
    (∀ (pre post : List AncestorNode) (n : String),
      (∀ a ∈ pre, isNamedFuncDecl a = false) →
      getEnclosingFunctionName (pre ++ AncestorNode.funcDecl (some n) :: post) = n) ∧
    (∀ chain : List AncestorNode,
      (∀ a ∈ chain, isNamedFuncDecl a = false) →
      getEnclosingFunctionName chain = "global") ∧
    (∀ (f : String) (line : Nat) (pre post : List AncestorNode) (n : String),
      (∀ a ∈ pre, isNamedCaller001 a = false) →
      callerName001 f line (pre ++ AncestorNode.funcDecl (some n) :: post) =
        f ++ ":" ++ n) ∧
    (∀ (f : String) (line : Nat) (pre post : List AncestorNode) (k : String),
      (∀ a ∈ pre, isNamedCaller001 a = false) →
      callerName001 f line (pre ++ AncestorNode.methodDef (some k) :: post) =
        f ++ ":" ++ k) ∧
    (∀ (f : String) (line : Nat) (chain : List AncestorNode),
      (∀ a ∈ chain, isNamedCaller001 a = false) →
      callerName001 f line chain = f ++ ":anonymous[" ++ toString line ++ "]") ∧
    (∀ (f c : String) (s e : Nat),
      (extractIndex f [WalkNode.callExpression (some c) s e]).2 =
        [⟨f ++ ":anonymous[" ++ toString s ++ "-" ++ toString e ++ "]", c, "calls"⟩]) := by
  refine ⟨?_, ?_, ?_, ?_, ?_, ?_⟩
  · intro pre post n hpre
    induction pre with
    | nil => rfl
    | cons a rest ih =>
      have ha : isNamedFuncDecl a = false := hpre a (List.mem_cons_self _ _)
      have hrest := ih (fun b hb => hpre b (List.mem_cons_of_mem _ hb))
      cases a with
      | funcDecl name =>
        cases name with
        | none => exact hrest
        | some m => simp [isNamedFuncDecl] at ha
      | methodDef name => exact hrest
      | other => exact hrest
  · intro chain hchain
    induction chain with
    | nil => rfl
    | cons a rest ih =>
      have ha : isNamedFuncDecl a = false := hchain a (List.mem_cons_self _ _)
      have hrest := ih (fun b hb => hchain b (List.mem_cons_of_mem _ hb))
      cases a with
      | funcDecl name =>
        cases name with
        | none => exact hrest
        | some m => simp [isNamedFuncDecl] at ha
      | methodDef name => exact hrest
      | other => exact hrest
  · intro f line pre post n hpre
    induction pre with
    | nil => rfl
    | cons a rest ih =>
      have ha : isNamedCaller001 a = false := hpre a (List.mem_cons_self _ _)
      have hrest := ih (fun b hb => hpre b (List.mem_cons_of_mem _ hb))
      cases a with
      | funcDecl name =>
        cases name with
        | none => exact hrest
        | some m => simp [isNamedCaller001] at ha
      | methodDef name =>
        cases name with
        | none => exact hrest
        | some m => simp [isNamedCaller001] at ha
      | other => exact hrest
  · intro f line pre post k hpre
    induction pre with
    | nil => rfl
    | cons a rest ih =>
      have ha : isNamedCaller001 a = false := hpre a (List.mem_cons_self _ _)
      have hrest := ih (fun b hb => hpre b (List.mem_cons_of_mem _ hb))
      cases a with
      | funcDecl name =>
        cases name with
        | none => exact hrest
        | some m => simp [isNamedCaller001] at ha
      | methodDef name =>
        cases name with
        | none => exact hrest
        | some m => simp [isNamedCaller001] at ha
      | other => exact hrest
  · intro f line chain hchain
    induction chain with
    | nil => rfl
    | cons a rest ih =>
      have ha : isNamedCaller001 a = false := hchain a (List.mem_cons_self _ _)
      have hrest := ih (fun b hb => hchain b (List.mem_cons_of_mem _ hb))
      cases a with
      | funcDecl name =>
        cases name with
        | none => exact hrest
        | some m => simp [isNamedCaller001] at ha
      | methodDef name =>
        cases name with
        | none => exact hrest
        | some m => simp [isNamedCaller001] at ha
      | other => exact hrest
  · intro f c s e
    rfl

/-- Witness for `caller_attribution_by_variant` at concrete inputs, including a
chain whose only candidate is a method definition, which part_000 ignores
(yielding `"global"`) and part_001 stops at. -/
theorem caller_attribution_by_variant_witness :
    getEnclosingFunctionName [AncestorNode.other, AncestorNode.funcDecl (some "a")] = "a" ∧
    getEnclosingFunctionName [AncestorNode.methodDef (some "m")] = "global" ∧
    callerName001 "f.js" 7 [AncestorNode.other, AncestorNode.funcDecl (some "a")] = "f.js:a" ∧
    callerName001 "f.js" 7 [AncestorNode.methodDef (some "m")] = "f.js:m" ∧
    callerName001 "f.js" 7 [AncestorNode.other] = "f.js:anonymous[7]" ∧
    (extractIndex "f.js" [WalkNode.callExpression (some "b") 2 2]).2 =
      [⟨"f.js:anonymous[2-2]", "b", "calls"⟩] :=
  ⟨caller_attribution_by_variant.1 [AncestorNode.other] [] "a" (by decide),
   caller_attribution_by_variant.2.1 [AncestorNode.methodDef (some "m")] (by decide),
   caller_attribution_by_variant.2.2.1 "f.js" 7 [AncestorNode.other] [] "a" (by decide),
   caller_attribution_by_variant.2.2.2.1 "f.js" 7 [] [] "m" (by decide),
   caller_attribution_by_variant.2.2.2.2.1 "f.js" 7 [AncestorNode.other] (by decide),
   caller_attribution_by_variant.2.2.2.2.2 "f.js" "b" 2 2⟩

/-- Claim C3 is a code bug: `deduplicate` merges provenance by mutating the
representative objects stored in the raw arrays (`existing.lines += ", " +
item.lines`), so a second run over the same raw observation arrays appends the
duplicate ranges a second time. With two observations of `f.js:a`/`method`
carrying `[1-2]` and `[3-4]`, the first run returns provenance
`[1-2], [3-4]` but the second run returns `[1-2], [3-4], [3-4]` — the two runs
disagree, and part_000 actually performs this double run when `-o` is given
(console report at line 280, CSV export at line 284). -/
theorem dedup_second_run_duplicates_provenance :
    (dedupMutate
        [⟨"f.js:a", "a", "method", some "[1-2]"⟩,
         ⟨"f.js:a", "a", "method", some "[3-4]"⟩]).2 =
      [⟨"f.js:a", "a", "method", some "[1-2], [3-4]"⟩] ∧
    (dedupMutate (dedupMutate
        [⟨"f.js:a", "a", "method", some "[1-2]"⟩,
         ⟨"f.js:a", "a", "method", some "[3-4]"⟩]).1).2 =
      [⟨"f.js:a", "a", "method", some "[1-2], [3-4], [3-4]"⟩] ∧
    (dedupMutate (dedupMutate
        [⟨"f.js:a", "a", "method", some "[1-2]"⟩,
         ⟨"f.js:a", "a", "method", some "[3-4]"⟩]).1).2 ≠
      (dedupMutate
        [⟨"f.js:a", "a", "method", some "[1-2]"⟩,
         ⟨"f.js:a", "a", "method", some "[3-4]"⟩]).2 := by
  exact ⟨by decide, by decide, by decide⟩

/-- Claim C4: for any identity-and-kind key observed at least once, every
observation carrying a (truthy) line-range string, the single deduplicated
record for that key is the first observation with its provenance replaced by
the comma-join of all observed ranges, each preserved verbatim, in first-seen
order. -/
theorem merged_provenance_joins_all_ranges (raw : List NodeRec) (K : String)
    (r : NodeRec) (rest : List NodeRec)
    (hf : raw.filter (fun n => nodeKey n = K) = r :: rest)
    (ht : ∀ n ∈ r :: rest, linesTruthy n.lines = true) :
    (dedupNodes raw).filter (fun n => nodeKey n = K) =
      [{ r with lines := some (joinRanges ((r :: rest).map (fun n => n.lines.getD ""))) }] := by
  have h6 : (dedupList nodeKey mergeLines raw).filter (fun n => nodeKey n = K) =
      [rest.foldl mergeLines r] := by
    rw [dedupList_filter_key nodeKey mergeLines nodeKey_mergeLines raw K, hf]
  unfold dedupNodes
  rw [h6]
  have hrT : linesTruthy r.lines = true := ht r (List.mem_cons_self _ _)
  obtain ⟨s, hs⟩ : ∃ s, r.lines = some s := by
    cases hr : r.lines with
    | none =>
      rw [hr] at hrT
      simp [linesTruthy] at hrT
    | some s => exact ⟨s, rfl⟩
  have hsne : s ≠ "" := linesTruthy_some_ne (hs ▸ hrT)
  rw [foldl_mergeLines_truthy rest r s hs hsne
    (fun m hm => ht m (List.mem_cons_of_mem _ hm))]
  simp [hs]

/-- Witness for `merged_provenance_joins_all_ranges`: two observations of
`f.js:a` with kind `method` carrying ranges `[1-2]` and `[3-4]` merge into one
record whose provenance is `[1-2], [3-4]`. -/
theorem merged_provenance_joins_all_ranges_witness :
    (dedupNodes [⟨"f.js:a", "a", "method", some "[1-2]"⟩,
                 ⟨"f.js:a", "a", "method", some "[3-4]"⟩]).filter
        (fun n => nodeKey n = "f.js:a-method") =
      [⟨"f.js:a", "a", "method", some "[1-2], [3-4]"⟩] :=
  merged_provenance_joins_all_ranges
    [⟨"f.js:a", "a", "method", some "[1-2]"⟩, ⟨"f.js:a", "a", "method", some "[3-4]"⟩]
    "f.js:a-method" ⟨"f.js:a", "a", "method", some "[1-2]"⟩
    [⟨"f.js:a", "a", "method", some "[3-4]"⟩] (by decide) (by decide)

/-- Counterexample to claim C5: in part_001 the argument rendering is embedded
in the edge's `type` (`` `calls(${args})` ``, line 143), which is part of the
deduplication key `source-target-type`, so two call edges with the same
(source, target) but different argument renderings do NOT collapse to one edge:
both survive deduplication. -/
theorem different_arg_renderings_yield_two_edges :
    (dedupEdges [⟨"f.js:a", "log", callsType "1"⟩,
                 ⟨"f.js:a", "log", callsType "2"⟩]).length = 2 := by
  decide

/-- Claim C5, amended: in part_001 the literal argument-list rendering is part
of the edge's identity key (it is embedded in the `type` field keyed by
`deduplicate`): any two edges with equal source and target but different `type`
strings — in particular `calls(...)` types with different renderings — both
survive deduplication as distinct edges. -/
theorem arg_rendering_part_of_edge_key (e1 e2 : EdgeRec)
    (hs : e1.source = e2.source) (ht : e1.target = e2.target)
    (hty : e1.type ≠ e2.type) :
    dedupEdges [e1, e2] = [e1, e2] := by
  have hk : ¬ edgeKey e1 = edgeKey e2 := by
    intro h
    apply hty
    unfold edgeKey at h
    rw [hs, ht] at h
    exact string_append_left_cancel h
  simp [dedupEdges, dedupList, dedupFold, containsKey, hk]

/-- Witness for `arg_rendering_part_of_edge_key`: the renderings `1` and `2`
produce the distinct kinds `calls(1)` and `calls(2)` and two surviving edges. -/
theorem arg_rendering_part_of_edge_key_witness :
    dedupEdges [⟨"f.js:a", "log", callsType "1"⟩, ⟨"f.js:a", "log", callsType "2"⟩] =
      [⟨"f.js:a", "log", callsType "1"⟩, ⟨"f.js:a", "log", callsType "2"⟩] :=
  arg_rendering_part_of_edge_key
    ⟨"f.js:a", "log", callsType "1"⟩ ⟨"f.js:a", "log", callsType "2"⟩
    rfl rfl (by decide)

/-- Counterexample to claim C6: a second observation of `f.js:x`/`method`
carrying the range `[3-4]` is merged into a representative whose provenance is
missing (`none`); the merge guard `item.lines && existing.lines` is false, so
the observed range is dropped and the final record keeps `none`. -/
theorem range_dropped_when_representative_unprovenanced :
    dedupNodes [⟨"f.js:x", "x", "method", none⟩,
                ⟨"f.js:x", "x", "method", some "[3-4]"⟩] =
      [⟨"f.js:x", "x", "method", none⟩] := by
  decide

/-- Claim C6, amended: the merge is asymmetric. A later observation with
missing/empty provenance leaves the representative untouched; but when the
representative's provenance is missing or empty, the provenance of every later
observation for that key is dropped — the final record is the first observation
unchanged, so a range merged into a provenance-less representative is NOT
preserved. -/
theorem merge_keeps_representative_unchanged (raw : List NodeRec) (K : String)
    (r : NodeRec) (rest : List NodeRec)
    (hf : raw.filter (fun n => nodeKey n = K) = r :: rest)
    (h : linesTruthy r.lines = false ∨ ∀ n ∈ rest, linesTruthy n.lines = false) :
    (dedupNodes raw).filter (fun n => nodeKey n = K) = [r] := by
  have h6 : (dedupList nodeKey mergeLines raw).filter (fun n => nodeKey n = K) =
      [rest.foldl mergeLines r] := by
    rw [dedupList_filter_key nodeKey mergeLines nodeKey_mergeLines raw K, hf]
  unfold dedupNodes
  rw [h6]
  rcases h with h | h
  · rw [foldl_mergeLines_of_rep_falsy rest r h]
  · rw [foldl_mergeLines_of_items_falsy rest r h]

/-- Witness for `merge_keeps_representative_unchanged`: a provenance-less
representative absorbs an observation carrying `[3-4]` without recording it. -/
theorem merge_keeps_representative_unchanged_witness :
    (dedupNodes [⟨"f.js:x", "x", "method", none⟩,
                 ⟨"f.js:x", "x", "method", some "[3-4]"⟩]).filter
        (fun n => nodeKey n = "f.js:x-method") =
      [⟨"f.js:x", "x", "method", none⟩] :=
  merge_keeps_representative_unchanged
    [⟨"f.js:x", "x", "method", none⟩, ⟨"f.js:x", "x", "method", some "[3-4]"⟩]
    "f.js:x-method" ⟨"f.js:x", "x", "method", none⟩
    [⟨"f.js:x", "x", "method", some "[3-4]"⟩] (by decide) (Or.inl (by decide))

/-- Claim C7: after edge deduplication, any two distinct entries of the final
edge list differ in their (source, target, kind) triple — exactly one edge
record survives per unique triple. -/
theorem final_edges_unique_triples (raw : List EdgeRec) :
    (dedupEdges raw).Pairwise
      (fun e1 e2 => ¬ (e1.source = e2.source ∧ e1.target = e2.target ∧
        e1.type = e2.type)) := by
  have h := dedupList_pairwise_key edgeKey (fun v _ => v) (fun _ _ => rfl) raw
  unfold dedupEdges
  refine h.imp ?_
  intro e1 e2 hne hcon
  apply hne
  obtain ⟨h1, h2, h3⟩ := hcon
  unfold edgeKey
  rw [h1, h2, h3]

/-- Claim C8: on the input file `f.js` containing `function a(){...}` with a
call `b()` at lines 2-2, the index.js extractor emits a `calls` edge whose
target `b` was never declared as an entity (no extracted node has id `b`), and
that edge survives deduplication. -/
theorem edge_target_need_not_be_declared :
    (extractIndex "f.js"
        [.functionDeclaration "a" 1 3, .callExpression (some "b") 2 2]).1 =
      [⟨"f.js:a", "a", "method", some "[1-3]"⟩] ∧
    dedupEdges (extractIndex "f.js"
        [.functionDeclaration "a" 1 3, .callExpression (some "b") 2 2]).2 =
      [⟨"f.js:anonymous[2-2]", "b", "calls"⟩] ∧
    ((extractIndex "f.js"
        [.functionDeclaration "a" 1 3, .callExpression (some "b") 2 2]).1.all
      (fun n => n.id ≠ "b")) = true := by
  exact ⟨by decide, by decide, by decide⟩

/-- Claim C9: a file whose text fails to parse contributes zero node and zero
edge observations, emits exactly one warning naming the file, and leaves the
contributions of every preceding and following file unchanged. -/
theorem parse_failure_skips_file_and_warns (pre post : List InputFile)
    (p b msg : String) :
    (scanFiles (pre ++ ⟨p, b, Except.error msg⟩ :: post)).nodes =
        (scanFiles (pre ++ post)).nodes ∧
    (scanFiles (pre ++ ⟨p, b, Except.error msg⟩ :: post)).edges =
        (scanFiles (pre ++ post)).edges ∧
    (scanFiles (pre ++ ⟨p, b, Except.error msg⟩ :: post)).warnings =
        (scanFiles pre).warnings ++
          ("Warning: Could not parse " ++ p ++ ". Error: " ++ msg) ::
            (scanFiles post).warnings := by
  have h1 : scanFiles (pre ++ ⟨p, b, Except.error msg⟩ :: post) =
      extAppend (scanFiles pre)
        (extAppend (processFile ⟨p, b, Except.error msg⟩) (scanFiles post)) := by
    rw [scanFiles_append]
    rfl
  have h2 : scanFiles (pre ++ post) = extAppend (scanFiles pre) (scanFiles post) :=
    scanFiles_append pre post
  have h3 : processFile ⟨p, b, Except.error msg⟩ =
      ⟨[], [], ["Warning: Could not parse " ++ p ++ ". Error: " ++ msg]⟩ := rfl
  rw [h1, h2, h3]
  simp [extAppend]

/-- Claim C10: in the argument-tracking variant (part_001), after any sequence
of `addNode`/`addEdge` operations from the empty accumulators, every recorded
edge has both of its endpoints materialized as node records — `addEdge` calls
`ensureNodeExists` on both endpoints before pushing the edge, creating a node
with an inferred kind when the endpoint was not previously declared. -/
theorem addEdge_materializes_endpoints (ops : List Op001) (e : EdgeRec)
    (he : e ∈ (runOps001 ops).edges) :
    hasId (runOps001 ops) e.source = true ∧ hasId (runOps001 ops) e.target = true := by
  have hinv : EndpointsMaterialized (runOps001 ops) :=
    runFrom001_preserves ops ⟨[], []⟩ (fun e' he' => absurd he' (List.not_mem_nil e'))
  exact hinv e he

/-- Witness for `addEdge_materializes_endpoints`: one `addEdge` from the empty
state materializes both `f.js:a` (inferred kind `function`) and `log`
(inferred kind `variable`). -/
theorem addEdge_materializes_endpoints_witness :
    hasId (runOps001 [Op001.addEdge "f.js:a" "log" "calls(x)"]) "f.js:a" = true ∧
    hasId (runOps001 [Op001.addEdge "f.js:a" "log" "calls(x)"]) "log" = true :=
  addEdge_materializes_endpoints [Op001.addEdge "f.js:a" "log" "calls(x)"]
    ⟨"f.js:a", "log", "calls(x)"⟩ (by decide)
